import Mathlib

set_option linter.unusedSectionVars false

/-!
Shallow embedding of the groupcache primitives:

* `LRU` — the bounded LRU cache of `src/lru/lru.go`.  The Go code keeps a
  doubly-linked list (`ll`, front = most-recently-used) and a map from keys
  to list elements (`cache`).  We model the list as `List (K × V)` (front
  first) and the map as the list of keys it contains; both are wrapped in
  `Option` because Go leaves them `nil` until the first `Add` and `Clear`
  resets them to `nil`.  The eviction callback `OnEvicted` is modelled by a
  flag `hasOnEvicted` plus a log `evLog` of the (key, value) pairs the
  callback was invoked with, in invocation order.

* `CHash` — the consistent-hash ring of the `consistenthash` package.

* `SFlight` — the call coalescer of the `singleflight` package, modelled
  sequentially (one caller at a time).
-/

namespace LRU

/-- State of a Go `lru.Cache`.  `ll` is the recency list, front =
most-recently-used; `cache` is the set of keys present in the lookup map
(the map value, a pointer to the list element, is recovered by looking the
key up in `ll`).  `none` models a `nil` Go map/list. -/
structure Cache (K V : Type) where
  maxEntries : Int
  hasOnEvicted : Bool
  ll : Option (List (K × V))
  cache : Option (List K)
  evLog : List (K × V)
deriving Repr

/-- Go `lru.New`: fresh cache with the given maximum; `OnEvicted` unset. -/
def New (K V : Type) (maxEntries : Int) : Cache K V :=
  { maxEntries := maxEntries, hasOnEvicted := false,
    ll := some [], cache := some [], evLog := [] }

variable {K V : Type} [DecidableEq K]

/-- First entry of the recency list whose key is `k` (the list element the
Go map points to for `k`). -/
def findEntry (k : K) : List (K × V) → Option (K × V)
  | [] => none
  | e :: t => if e.1 = k then some e else findEntry k t

/-- Remove the first entry with key `k` (Go `ll.Remove` of that element). -/
def eraseKey (k : K) : List (K × V) → List (K × V)
  | [] => []
  | e :: t => if e.1 = k then t else e :: eraseKey k t

/-- Remove the first occurrence of `k` (Go `delete(cache, k)`). -/
def eraseK (k : K) : List K → List K
  | [] => []
  | a :: t => if a = k then t else a :: eraseK k t

/-- Go `ll.MoveToFront` of the element holding key `k`: if present, the
entry moves to the front; a stale element leaves the list unchanged. -/
def moveToFront (k : K) (l : List (K × V)) : List (K × V) :=
  match findEntry k l with
  | some e => e :: eraseKey k l
  | none => l

/-- Go `Cache.removeElement` applied to the element with content `e`:
unlink from the list, delete the key from the map, and invoke the eviction
callback when one is configured. -/
def removeElement (c : Cache K V) (e : K × V) : Cache K V :=
  { c with
    ll := c.ll.map (eraseKey e.1),
    cache := c.cache.map (eraseK e.1),
    evLog := if c.hasOnEvicted then c.evLog ++ [e] else c.evLog }

/-- Go `Cache.RemoveOldest`: no-op when the map is `nil`; otherwise remove
the back (least-recently-used) element if the list is non-empty. -/
def RemoveOldest (c : Cache K V) : Cache K V :=
  match c.cache with
  | none => c
  | some _ =>
    match (c.ll.getD []).getLast? with
    | none => c
    | some e => removeElement c e

/-- Go `Cache.Remove`: delete the entry for `k` if the map contains it. -/
def Remove (c : Cache K V) (k : K) : Cache K V :=
  match c.cache with
  | none => c
  | some cm =>
    if k ∈ cm then
      match findEntry k (c.ll.getD []) with
      | some e => removeElement c e
      | none => c
    else c

/-- Go `Cache.Get`: on a map hit, move the element to the front and return
its value with `true`; on a miss or a `nil` map, return the zero value
(`none`) and `false` with no state change. -/
def Get (c : Cache K V) (k : K) : Option V × Bool × Cache K V :=
  match c.cache with
  | none => (none, false, c)
  | some cm =>
    if k ∈ cm then
      match findEntry k (c.ll.getD []) with
      | some e => (some e.2, true, { c with ll := c.ll.map (moveToFront k) })
      | none => (none, true, c)
    else (none, false, c)

/-- Body of Go `Cache.Add` after the lazy-initialisation check: on an
existing key move the element to the front and overwrite its value; on a
new key push to the front, record the key in the map, and evict the oldest
entry when the configured maximum is non-zero and exceeded. -/
def addBody (c : Cache K V) (k : K) (v : V) : Cache K V :=
  let cm := c.cache.getD []
  let l := c.ll.getD []
  if k ∈ cm then
    match findEntry k l with
    | some _ => { c with cache := some cm, ll := some ((k, v) :: eraseKey k l) }
    | none => { c with cache := some cm, ll := some l }
  else
    let l' := (k, v) :: l
    let c' := { c with cache := some (k :: cm), ll := some l' }
    if c.maxEntries ≠ 0 ∧ (l'.length : Int) > c.maxEntries then RemoveOldest c' else c'

/-- Go `Cache.Add`: when the map is `nil`, first initialise the map and a
fresh list; then insert as in `addBody`. -/
def Add (c : Cache K V) (k : K) (v : V) : Cache K V :=
  match c.cache with
  | none => addBody { c with cache := some [], ll := some [] } k v
  | some _ => addBody c k v

/-- Go `Cache.Len`: 0 when the map is `nil`, else the list length. -/
def Len (c : Cache K V) : Int :=
  match c.cache with
  | none => 0
  | some _ => ((c.ll.getD []).length : Int)

/-- Entries the `Clear` loop visits: one per key in the map, with the value
read out of the corresponding list element. -/
def clearEntries (c : Cache K V) : List (K × V) :=
  (c.cache.getD []).filterMap (fun k => findEntry k (c.ll.getD []))

/-- Go `Cache.Clear`: invoke the callback once per stored entry when one is
configured, then set both list and map to `nil`. -/
def Clear (c : Cache K V) : Cache K V :=
  { c with
    evLog := if c.hasOnEvicted then c.evLog ++ clearEntries c else c.evLog,
    ll := none, cache := none }

/-- One cache operation, for stating invariants over arbitrary histories. -/
inductive Op (K V : Type) where
  | add (k : K) (v : V)
  | get (k : K)
  | remove (k : K)
  | removeOldest
  | clear
deriving Repr

/-- Apply one operation (discarding `Get`'s return value). -/
def step (c : Cache K V) : Op K V → Cache K V
  | .add k v => Add c k v
  | .get k => (Get c k).2.2
  | .remove k => Remove c k
  | .removeOldest => RemoveOldest c
  | .clear => Clear c

/-- Run a sequence of operations. -/
def run (c : Cache K V) (ops : List (Op K V)) : Cache K V :=
  ops.foldl step c

/-- Keys of the recency list, front first. -/
def llKeys (c : Cache K V) : List K :=
  (c.ll.getD []).map Prod.fst

/-- The internal consistency invariant: list and map are `nil` together,
keys are duplicate-free on both sides, and the list and the map hold
exactly the same key set. -/
def WF (c : Cache K V) : Prop :=
  (c.ll = none ↔ c.cache = none)
  ∧ (llKeys c).Nodup
  ∧ (c.cache.getD []).Nodup
  ∧ ∀ k : K, k ∈ llKeys c ↔ k ∈ c.cache.getD []

/-- Fold `Add` over a list of (key, value) pairs, in order. -/
def addAll (c : Cache K V) (ps : List (K × V)) : Cache K V :=
  ps.foldl (fun a p => Add a p.1 p.2) c

/-- Ghost measurement: how many fresh entries the operation inserts
(1 for an `Add` of a key not currently in the lookup map, else 0). -/
def insertedCount (c : Cache K V) : Op K V → Int
  | .add k _ => if k ∈ c.cache.getD [] then 0 else 1
  | _ => 0

/-- Ghost measurement: how many entries the operation removes from the
cache, computed from the entry counts before and after the step. -/
def removedCount (c : Cache K V) (op : Op K V) : Int :=
  Len c + insertedCount c op - Len (step c op)

/-- Ghost measurement: total number of entries removed along a whole
operation sequence. -/
def removedTotal (c : Cache K V) : List (Op K V) → Int
  | [] => 0
  | op :: t => removedCount c op + removedTotal (step c op) t

/-- Concrete two-entry cache with the eviction callback configured (key 1
inserted before key 2), used as a test fixture in witnesses. -/
def sampleCache : Cache Nat Nat :=
  { maxEntries := 2, hasOnEvicted := true,
    ll := some [(2, 20), (1, 10)], cache := some [2, 1], evLog := [] }

end LRU

namespace CHash

/-- State of a `consistenthash.Map`: the hash function, the replica count,
the virtual-point hashes (`keys`, kept sorted by `Add`) and the
hash-to-node map, modelled as an association list where the most recent
insertion is in front (so lookup of the first match gives Go's map
overwrite semantics). -/
structure HMap where
  hash : String → Nat
  replicas : Nat
  keys : List Nat
  hashMap : List (Nat × String)

/-- Go `consistenthash.New`: an empty ring.  (When Go is passed a `nil`
hash function it substitutes `crc32.ChecksumIEEE`; here the caller always
supplies the function.) -/
def New (replicas : Nat) (fn : String → Nat) : HMap :=
  { hash := fn, replicas := replicas, keys := [], hashMap := [] }

/-- Go `Map.IsEmpty`: true iff there are no virtual points. -/
def IsEmpty (m : HMap) : Bool :=
  m.keys.length = 0

/-- The hash of virtual point `i` of node `key`:
`m.hash([]byte(strconv.Itoa(i) + key))`. -/
def pointHash (m : HMap) (i : Nat) (key : String) : Nat :=
  m.hash (toString i ++ key)

/-- Inner loop of Go `Map.Add` for one node: append one virtual point per
replica index and record the hash-to-node binding. -/
def addNode (m : HMap) (key : String) : HMap :=
  (List.range m.replicas).foldl
    (fun acc i =>
      let h := acc.hash (toString i ++ key)
      { acc with keys := acc.keys ++ [h], hashMap := (h, key) :: acc.hashMap })
    m

/-- Go `sort.Ints` (ascending).  Any sorting algorithm yields the same
list, so insertion sort is an exact model. -/
def sortNats (l : List Nat) : List Nat :=
  List.insertionSort (· ≤ ·) l

/-- Go `Map.Add`: add every node's virtual points, then re-sort the
virtual-point list. -/
def Add (m : HMap) (ks : List String) : HMap :=
  let m' := ks.foldl addNode m
  { m' with keys := sortNats m'.keys }

/-- Loop body of Go `sort.Search`: binary search on `[i, j)` for the least
index satisfying `f`, with enough fuel to terminate. -/
def searchLoop (f : Nat → Bool) : Nat → Nat → Nat → Nat
  | 0, i, _ => i
  | fuel + 1, i, j =>
    if i < j then
      let mid := (i + j) / 2
      if f mid then searchLoop f fuel i mid else searchLoop f fuel (mid + 1) j
    else i

/-- Go `sort.Search n f`: the least index in `[0, n)` satisfying `f` when
`f` is monotone (false then true), else `n`. -/
def sortSearch (n : Nat) (f : Nat → Bool) : Nat :=
  searchLoop f n 0 n

/-- Go map lookup `m.hashMap[h]`, returning the zero value `""` when the
hash is unbound.  The front of the list is the most recent binding. -/
def lookupNode (h : Nat) : List (Nat × String) → String
  | [] => ""
  | (h', node) :: t => if h' = h then node else lookupNode h t

/-- Go `Map.Get`: empty ring yields `""`; otherwise hash the key alone,
binary-search for the first virtual point with hash ≥ it, wrap to index 0
when the search falls off the end, and return the owning node. -/
def Get (m : HMap) (key : String) : String :=
  if IsEmpty m then ""
  else
    let h := m.hash key
    let idx := sortSearch m.keys.length (fun i => decide (m.keys.getD i 0 ≥ h))
    let idx' := if idx = m.keys.length then 0 else idx
    lookupNode (m.keys.getD idx' 0) m.hashMap

/-- Toy hash used as a test fixture in witnesses: distinct values on the
virtual points of nodes "a" and "b" with three replicas. -/
def sampleHash : String → Nat := fun s =>
  if s = "0a" then 10 else if s = "1a" then 20 else if s = "2a" then 30
  else if s = "0b" then 15 else if s = "1b" then 25 else if s = "2b" then 35
  else if s = "big" then 99 else 0

/-- The (hash, node) bindings one `Add` call inserts, in insertion order:
for each node in turn, one point per replica index `0 .. replicas-1`. -/
def newPoints (m : HMap) (ks : List String) : List (Nat × String) :=
  ks.flatMap (fun k =>
    (List.range m.replicas).map (fun i => (m.hash (toString i ++ k), k)))

end CHash

namespace SFlight

/-- A Go `singleflight.call` as observable after completion: the recorded
value and error (`none` models a `nil` Go value/error; the value is also
`none` while the call has not yet stored its result). -/
structure CallRec (V E : Type) where
  val : Option V
  err : Option E
deriving Repr

/-- A Go `singleflight.Group`: the lazily-initialised registry of in-flight
calls (`none` models the `nil` map). -/
structure Group (V E : Type) where
  m : Option (List (String × CallRec V E))
deriving Repr

/-- Fresh group, registry not yet initialised (Go zero value). -/
def emptyGroup (V E : Type) : Group V E :=
  { m := none }

/-- Registry lookup `g.m[key]`. -/
def findRec (key : String) : List (String × CallRec V E) → Option (CallRec V E)
  | [] => none
  | (k, c) :: t => if k = key then some c else findRec key t

/-- Go `delete(g.m, key)`. -/
def deleteRec (key : String) (l : List (String × CallRec V E)) :
    List (String × CallRec V E) :=
  l.filter (fun p => decide (p.1 ≠ key))

/-- Go `Group.Do`, run to completion by a single caller (sequential
semantics).  Returns the (value, error) pair handed to the caller, the
resulting group, and how many times `fn` was invoked during the call.  If
the registry already holds a call for `key`, the caller waits and returns
that call's stored result without invoking `fn`; otherwise it registers a
record, invokes `fn`, stores the result, signals completion, deletes the
record and returns the result. -/
def Do (g : Group V E) (key : String) (fn : Unit → V × Option E) :
    (Option V × Option E) × Group V E × Nat :=
  let mp := g.m.getD []
  match findRec key mp with
  | some c => ((c.val, c.err), { m := some mp }, 0)
  | none =>
    let mp1 := (key, ({ val := none, err := none } : CallRec V E)) :: mp
    let r := fn ()
    let mp2 := (key, ({ val := some r.1, err := r.2 } : CallRec V E)) ::
      deleteRec key mp1
    let mp3 := deleteRec key mp2
    ((some r.1, r.2), { m := some mp3 }, 1)

end SFlight

/-! ### Lemmas about the LRU list primitives -/

namespace LRU

variable {K V : Type} [DecidableEq K]

theorem eraseK_of_not_mem {k : K} {s : List K} (h : k ∉ s) : eraseK k s = s := by
  induction s with
  | nil => rfl
  | cons a t ih =>
    simp only [List.mem_cons, not_or] at h
    simp only [eraseK, if_neg (Ne.symm h.1), ih h.2]

theorem mem_of_mem_eraseK {k x : K} {s : List K} (h : x ∈ eraseK k s) : x ∈ s := by
  induction s with
  | nil => exact absurd h (List.not_mem_nil x)
  | cons a t ih =>
    simp only [eraseK] at h
    by_cases hak : a = k
    · rw [if_pos hak] at h
      exact List.mem_cons_of_mem a h
    · rw [if_neg hak] at h
      rcases List.mem_cons.mp h with h | h
      · exact List.mem_cons.mpr (Or.inl h)
      · exact List.mem_cons_of_mem a (ih h)

theorem mem_eraseK_of_ne {k x : K} {s : List K} (hx : x ∈ s) (hne : x ≠ k) :
    x ∈ eraseK k s := by
  induction s with
  | nil => exact absurd hx (List.not_mem_nil x)
  | cons a t ih =>
    simp only [eraseK]
    by_cases hak : a = k
    · rw [if_pos hak]
      rcases List.mem_cons.mp hx with h | h
      · exact absurd (h.trans hak) hne
      · exact h
    · rw [if_neg hak]
      rcases List.mem_cons.mp hx with h | h
      · exact List.mem_cons.mpr (Or.inl h)
      · exact List.mem_cons_of_mem a (ih h)

theorem not_mem_eraseK {k : K} {s : List K} (h : s.Nodup) : k ∉ eraseK k s := by
  induction s with
  | nil => exact List.not_mem_nil k
  | cons a t ih =>
    rcases List.nodup_cons.mp h with ⟨ha, ht⟩
    simp only [eraseK]
    by_cases hak : a = k
    · rw [if_pos hak]
      exact fun hk => ha (hak ▸ hk)
    · rw [if_neg hak]
      intro hk
      rcases List.mem_cons.mp hk with h' | h'
      · exact hak h'.symm
      · exact ih ht h'

theorem nodup_eraseK {k : K} {s : List K} (h : s.Nodup) : (eraseK k s).Nodup := by
  induction s with
  | nil => exact List.nodup_nil
  | cons a t ih =>
    rcases List.nodup_cons.mp h with ⟨ha, ht⟩
    simp only [eraseK]
    by_cases hak : a = k
    · rw [if_pos hak]; exact ht
    · rw [if_neg hak]
      exact List.nodup_cons.mpr ⟨fun hm => ha (mem_of_mem_eraseK hm), ih ht⟩

theorem perm_cons_eraseK {k : K} {s : List K} (h : k ∈ s) :
    s.Perm (k :: eraseK k s) := by
  induction s with
  | nil => exact absurd h (List.not_mem_nil k)
  | cons a t ih =>
    simp only [eraseK]
    by_cases hak : a = k
    · rw [if_pos hak, hak]
    · rw [if_neg hak]
      rcases List.mem_cons.mp h with h' | h'
      · exact absurd h'.symm hak
      · exact ((ih h').cons a).trans (List.Perm.swap k a _)

theorem findEntry_eq_none {k : K} {l : List (K × V)} :
    findEntry k l = none ↔ k ∉ l.map Prod.fst := by
  induction l with
  | nil => simp [findEntry]
  | cons e t ih =>
    simp only [findEntry, List.map_cons, List.mem_cons, not_or]
    by_cases hek : e.1 = k
    · simp [if_pos hek, hek]
    · rw [if_neg hek]
      constructor
      · exact fun h => ⟨fun he => hek he.symm, ih.mp h⟩
      · exact fun h => ih.mpr h.2

theorem findEntry_some {k : K} {l : List (K × V)} {e : K × V}
    (h : findEntry k l = some e) : e ∈ l ∧ e.1 = k := by
  induction l with
  | nil => exact absurd h (by simp [findEntry])
  | cons x t ih =>
    simp only [findEntry] at h
    by_cases hxk : x.1 = k
    · rw [if_pos hxk] at h
      exact ⟨List.mem_cons.mpr (Or.inl (Option.some.inj h).symm),
        (Option.some.inj h) ▸ hxk⟩
    · rw [if_neg hxk] at h
      exact ⟨List.mem_cons_of_mem x (ih h).1, (ih h).2⟩

theorem exists_findEntry {k : K} {l : List (K × V)} (h : k ∈ l.map Prod.fst) :
    ∃ e, findEntry k l = some e := by
  cases hf : findEntry (V := V) k l with
  | none => exact absurd (findEntry_eq_none.mp hf) (not_not_intro h)
  | some e => exact ⟨e, rfl⟩

theorem map_fst_eraseKey (k : K) (l : List (K × V)) :
    (eraseKey k l).map Prod.fst = eraseK k (l.map Prod.fst) := by
  induction l with
  | nil => rfl
  | cons e t ih =>
    simp only [eraseKey, List.map_cons, eraseK]
    by_cases hek : e.1 = k
    · rw [if_pos hek, if_pos hek]
    · rw [if_neg hek, if_neg hek, List.map_cons, ih]

theorem findEntry_eraseKey_ne {k k' : K} (h : k' ≠ k) (l : List (K × V)) :
    findEntry k' (eraseKey k l) = findEntry k' l := by
  induction l with
  | nil => rfl
  | cons e t ih =>
    by_cases hek : e.1 = k
    · have hek' : ¬ e.1 = k' := fun he => h (he ▸ hek)
      rw [show eraseKey k (e :: t) = t from by rw [eraseKey, if_pos hek]]
      rw [show findEntry k' (e :: t) = findEntry k' t from by
        rw [findEntry, if_neg hek']]
    · rw [show eraseKey k (e :: t) = e :: eraseKey k t from by
        rw [eraseKey, if_neg hek]]
      by_cases hek' : e.1 = k'
      · rw [show findEntry k' (e :: eraseKey k t) = some e from by
          rw [findEntry, if_pos hek']]
        rw [show findEntry k' (e :: t) = some e from by rw [findEntry, if_pos hek']]
      · rw [show findEntry k' (e :: eraseKey k t) = findEntry k' (eraseKey k t)
          from by rw [findEntry, if_neg hek']]
        rw [show findEntry k' (e :: t) = findEntry k' t from by
          rw [findEntry, if_neg hek']]
        exact ih

theorem eraseKey_of_not_mem {k : K} {l : List (K × V)}
    (h : k ∉ l.map Prod.fst) : eraseKey k l = l := by
  induction l with
  | nil => rfl
  | cons e t ih =>
    simp only [List.map_cons, List.mem_cons, not_or] at h
    simp only [eraseKey, if_neg (Ne.symm h.1), ih h.2]

theorem perm_cons_eraseKey {k : K} {l : List (K × V)} {e : K × V}
    (h : findEntry k l = some e) : l.Perm (e :: eraseKey k l) := by
  induction l with
  | nil => exact absurd h (by simp [findEntry])
  | cons x t ih =>
    simp only [findEntry, eraseKey] at h ⊢
    by_cases hxk : x.1 = k
    · rw [if_pos hxk] at h
      cases h
      rw [if_pos hxk]
    · rw [if_neg hxk] at h
      rw [if_neg hxk]
      exact ((ih h).cons x).trans (List.Perm.swap e x _)

theorem mem_eraseK_iff {k x : K} {s : List K} (h : s.Nodup) :
    x ∈ eraseK k s ↔ x ≠ k ∧ x ∈ s := by
  constructor
  · exact fun hx => ⟨fun hxk => not_mem_eraseK h (hxk ▸ hx), mem_of_mem_eraseK hx⟩
  · exact fun hx => mem_eraseK_of_ne hx.2 hx.1

theorem eraseKey_append_of_not_mem {k : K} {a : List (K × V)} (b : List (K × V))
    (h : k ∉ a.map Prod.fst) : eraseKey k (a ++ b) = a ++ eraseKey k b := by
  induction a with
  | nil => rfl
  | cons e t ih =>
    simp only [List.map_cons, List.mem_cons, not_or] at h
    simp only [List.cons_append, eraseKey, if_neg (Ne.symm h.1)]
    exact congrArg (fun x => e :: x) (ih h.2)

/-! ### Preservation of the LRU consistency invariant -/

theorem wf_mk {max : Int} {flag : Bool} {l : List (K × V)} {s : List K}
    {log : List (K × V)}
    (hn : (l.map Prod.fst).Nodup) (hs : s.Nodup)
    (hiff : ∀ x, x ∈ l.map Prod.fst ↔ x ∈ s) :
    WF { maxEntries := max, hasOnEvicted := flag, ll := some l,
         cache := some s, evLog := log } := by
  refine ⟨by simp, ?_, ?_, ?_⟩
  · simpa [llKeys] using hn
  · simpa using hs
  · simpa [llKeys] using hiff

theorem wf_nil {max : Int} {flag : Bool} {log : List (K × V)} :
    WF (K := K) (V := V)
      { maxEntries := max, hasOnEvicted := flag, ll := none,
        cache := none, evLog := log } := by
  refine ⟨by simp, ?_, ?_, ?_⟩ <;> simp [llKeys]

theorem wf_removeElement {c : Cache K V} (hw : WF c) (e : K × V) :
    WF (removeElement c e) := by
  obtain ⟨h1, h2, h3, h4⟩ := hw
  cases hc : c.cache with
  | none =>
    cases hll : c.ll with
    | none =>
      simp only [removeElement, hc, hll, Option.map_none']
      exact wf_nil
    | some l => exact Option.noConfusion (hll ▸ h1.mpr hc)
  | some s =>
    cases hll : c.ll with
    | none => exact Option.noConfusion (hc ▸ h1.mp hll)
    | some l =>
      simp only [llKeys, hll, hc, Option.getD_some] at h2 h3 h4
      simp only [removeElement, hc, hll, Option.map_some']
      exact wf_mk
        (by rw [map_fst_eraseKey]; exact nodup_eraseK h2)
        (nodup_eraseK h3)
        (fun x => by
          rw [map_fst_eraseKey, mem_eraseK_iff h2, mem_eraseK_iff h3]
          exact and_congr_right (fun _ => h4 x))

theorem wf_RemoveOldest {c : Cache K V} (hw : WF c) : WF (RemoveOldest c) := by
  unfold RemoveOldest
  cases hc : c.cache with
  | none => exact hw
  | some s =>
    cases hl : (c.ll.getD []).getLast? with
    | none => exact hw
    | some e => exact wf_removeElement hw e

theorem wf_Remove {c : Cache K V} (hw : WF c) (k : K) : WF (Remove c k) := by
  unfold Remove
  split
  · exact hw
  · split
    · split
      · exact wf_removeElement hw _
      · exact hw
    · exact hw

theorem wf_Get {c : Cache K V} (hw : WF c) (k : K) : WF ((Get c k).2.2) := by
  obtain ⟨h1, h2, h3, h4⟩ := hw
  unfold Get
  split
  · exact ⟨h1, h2, h3, h4⟩
  · rename_i s hc
    split
    · rename_i hk
      split
      · rename_i e he
        cases hll : c.ll with
        | none => exact Option.noConfusion (hc ▸ h1.mp hll)
        | some l =>
          rw [hll, Option.getD_some] at he
          simp only [llKeys, hll, hc, Option.getD_some] at h2 h3 h4
          have hperm : l.Perm (moveToFront k l) := by
            rw [moveToFront, he]
            exact perm_cons_eraseKey he
          simp only [hll, hc, Option.map_some']
          exact wf_mk ((hperm.map Prod.fst).nodup h2) h3
            (fun x => ((hperm.map Prod.fst).mem_iff).symm.trans (h4 x))
      · exact ⟨h1, h2, h3, h4⟩
    · exact ⟨h1, h2, h3, h4⟩

theorem wf_addBody {c : Cache K V} (hw : WF c) (k : K) (v : V) :
    WF (addBody c k v) := by
  obtain ⟨h1, h2, h3, h4⟩ := hw
  simp only [llKeys] at h2 h4
  simp only [addBody]
  split
  · rename_i hk
    split
    · rename_i e he
      exact wf_mk
        (by
          rw [List.map_cons, map_fst_eraseKey]
          exact List.nodup_cons.mpr ⟨not_mem_eraseK h2, nodup_eraseK h2⟩)
        h3
        (fun x => by
          rw [List.map_cons, map_fst_eraseKey, List.mem_cons, mem_eraseK_iff h2]
          constructor
          · rintro (rfl | ⟨_, hx⟩)
            · exact hk
            · exact (h4 x).mp hx
          · intro hx
            by_cases hxk : x = k
            · exact Or.inl hxk
            · exact Or.inr ⟨hxk, (h4 x).mpr hx⟩)
    · rename_i he
      exact absurd ((h4 k).mpr hk) (findEntry_eq_none.mp he)
  · rename_i hk
    have hwf' : WF
        { c with
          cache := some (k :: c.cache.getD []),
          ll := some ((k, v) :: c.ll.getD []) } :=
      wf_mk
        (by
          rw [List.map_cons]
          exact List.nodup_cons.mpr ⟨fun hx => hk ((h4 k).mp hx), h2⟩)
        (List.nodup_cons.mpr ⟨hk, h3⟩)
        (fun x => by
          rw [List.map_cons, List.mem_cons, List.mem_cons]
          exact or_congr Iff.rfl (h4 x))
    split
    · exact wf_RemoveOldest hwf'
    · exact hwf'

theorem wf_Add {c : Cache K V} (hw : WF c) (k : K) (v : V) : WF (Add c k v) := by
  unfold Add
  split
  · exact wf_addBody (wf_mk (by simp) (by simp) (by simp)) k v
  · exact wf_addBody hw k v

theorem wf_Clear {c : Cache K V} : WF (Clear c) := by
  unfold Clear
  exact wf_nil

theorem wf_step {c : Cache K V} (hw : WF c) (op : Op K V) : WF (step c op) := by
  cases op with
  | add k v => exact wf_Add hw k v
  | get k => exact wf_Get hw k
  | remove k => exact wf_Remove hw k
  | removeOldest => exact wf_RemoveOldest hw
  | clear => exact wf_Clear

theorem wf_run {c : Cache K V} (hw : WF c) (ops : List (Op K V)) :
    WF (run c ops) := by
  induction ops generalizing c with
  | nil => exact hw
  | cons op t ih => exact ih (wf_step hw op)

theorem wf_New (maxEntries : Int) : WF (New K V maxEntries) :=
  wf_mk (by simp) (by simp) (by simp)

end LRU

/-! ### Claims C8, C9, C10 — cache invariant, miss behaviour, nil safety -/

namespace LRU

variable {K V : Type} [DecidableEq K]

theorem Get_miss {c : Cache K V} {k : K} (hk : k ∉ c.cache.getD []) :
    Get c k = (none, false, c) := by
  unfold Get
  split
  · rfl
  · rename_i s hc
    rw [hc, Option.getD_some] at hk
    rw [if_neg hk]

theorem Remove_absent {c : Cache K V} {k : K} (hk : k ∉ c.cache.getD []) :
    Remove c k = c := by
  unfold Remove
  split
  · rfl
  · rename_i s hc
    rw [hc, Option.getD_some] at hk
    rw [if_neg hk]

theorem RemoveOldest_empty {c : Cache K V} (h : Len c = 0) :
    RemoveOldest c = c := by
  unfold RemoveOldest
  split
  · rfl
  · rename_i s hc
    simp only [Len, hc] at h
    have hl : c.ll.getD [] = [] := List.length_eq_zero.mp (by exact_mod_cast h)
    rw [hl]
    rfl

/-- Claim C8: for every sequence of `Add`, `Get`, `Remove`, `RemoveOldest`,
`Len` and `Clear` operations on a fresh bounded cache, every key appears at
most once and the recency list and the lookup map always reference exactly
the same set of entries (no orphaned map entries, no list entries missing
from the map). -/
theorem claim_C8 (maxEntries : Int) (ops : List (Op K V)) :
    WF (run (New K V maxEntries) ops) :=
  wf_run (wf_New maxEntries) ops

/-- Claim C9: on an absent key, `Get` returns the zero value and a false
found flag leaving the state unchanged; `Remove` of an absent key and
`RemoveOldest` of an empty cache leave the state unchanged and signal no
failure. -/
theorem claim_C9 :
    (∀ (c : Cache K V) (k : K), k ∉ c.cache.getD [] →
      Get c k = (none, false, c))
    ∧ (∀ (c : Cache K V) (k : K), k ∉ c.cache.getD [] → Remove c k = c)
    ∧ (∀ c : Cache K V, Len c = 0 → RemoveOldest c = c) :=
  ⟨fun _ _ hk => Get_miss hk, fun _ _ hk => Remove_absent hk,
   fun _ h => RemoveOldest_empty h⟩

/-- Witness for C9 at concrete inputs. -/
theorem claim_C9_witness :
    (Get (run (New Nat Nat 2) [Op.add 1 10]) 5
      = (none, false, run (New Nat Nat 2) [Op.add 1 10]))
    ∧ (Remove (run (New Nat Nat 2) [Op.add 1 10]) 5
      = run (New Nat Nat 2) [Op.add 1 10])
    ∧ (RemoveOldest (New Nat Nat 3) = New Nat Nat 3) :=
  ⟨claim_C9.1 (run (New Nat Nat 2) [Op.add 1 10]) 5 (by decide),
   claim_C9.2.1 (run (New Nat Nat 2) [Op.add 1 10]) 5 (by decide),
   claim_C9.2.2 (New Nat Nat 3) (by decide)⟩

/-- Claim C10: every operation is safe on an uninitialised cache (the Go
zero value, or any cache after `Clear`): `Get` misses, `Remove` and
`RemoveOldest` are no-ops, `Len` is 0, `Clear` is a no-op; `Clear` retains
the configured maximum and callback while nilling both structures; and
`Add` lazily (re)initialises the list and map. -/
theorem claim_C10 :
    (∀ (c : Cache K V) (k : K), c.cache = none →
      Get c k = (none, false, c) ∧ Remove c k = c
        ∧ RemoveOldest c = c ∧ Len c = 0)
    ∧ (∀ c : Cache K V, c.cache = none → c.ll = none → Clear c = c)
    ∧ (∀ c : Cache K V, (Clear c).maxEntries = c.maxEntries
        ∧ (Clear c).hasOnEvicted = c.hasOnEvicted
        ∧ (Clear c).cache = none ∧ (Clear c).ll = none)
    ∧ (∀ (c : Cache K V) (k : K) (v : V), c.cache = none →
        (c.maxEntries = 0 ∨ 1 ≤ c.maxEntries) →
        Add c k v = { c with cache := some [k], ll := some [(k, v)] }) := by
  refine ⟨?_, ?_, ?_, ?_⟩
  · intro c k hc
    refine ⟨?_, ?_, ?_, ?_⟩
    · simp only [Get, hc]
    · simp only [Remove, hc]
    · simp only [RemoveOldest, hc]
    · simp only [Len, hc]
  · intro c hc hll
    cases c with
    | mk me fl ll ca lg =>
      simp only at hc hll
      subst hc
      subst hll
      simp [Clear, clearEntries]
  · intro c
    exact ⟨rfl, rfl, rfl, rfl⟩
  · intro c k v hc hmax
    simp only [Add, hc, addBody, Option.getD_some]
    rw [if_neg (List.not_mem_nil k)]
    have hcond : ¬(c.maxEntries ≠ 0
        ∧ (([(k, v)] : List (K × V)).length : Int) > c.maxEntries) := by
      rintro ⟨hne, hgt⟩
      have hgt' : (1 : Int) > c.maxEntries := by simpa using hgt
      rcases hmax with h0 | h1
      · exact hne h0
      · omega
    rw [if_neg hcond]

end LRU

/-! ### Shape lemmas for Add and RemoveOldest -/

namespace LRU

variable {K V : Type} [DecidableEq K]

theorem length_eraseKey_of_found {k : K} {l : List (K × V)} {e : K × V}
    (h : findEntry k l = some e) :
    l.length = (eraseKey k l).length + 1 := by
  rw [(perm_cons_eraseKey h).length_eq, List.length_cons]

theorem Add_eq_addBody {c : Cache K V} {s : List K} (hc : c.cache = some s)
    (k : K) (v : V) : Add c k v = addBody c k v := by
  simp only [Add, hc]

theorem addBody_update {c : Cache K V} {k : K} {e : K × V}
    (hk : k ∈ c.cache.getD []) (he : findEntry k (c.ll.getD []) = some e)
    (v : V) :
    addBody c k v
      = { c with
          cache := some (c.cache.getD []),
          ll := some ((k, v) :: eraseKey k (c.ll.getD [])) } := by
  simp only [addBody]
  rw [if_pos hk, he]

theorem addBody_fresh_noevict {c : Cache K V} {k : K} (v : V)
    (hk : k ∉ c.cache.getD [])
    (hcap : c.maxEntries = 0 ∨ ((c.ll.getD []).length : Int) + 1 ≤ c.maxEntries) :
    addBody c k v
      = { c with
          cache := some (k :: c.cache.getD []),
          ll := some ((k, v) :: c.ll.getD []) } := by
  simp only [addBody]
  rw [if_neg hk, if_neg]
  rintro ⟨hne, hgt⟩
  rw [List.length_cons] at hgt
  push_cast at hgt
  rcases hcap with h0 | h1
  · exact hne h0
  · omega

theorem addBody_fresh_evict {c : Cache K V} {k : K} (v : V)
    (hk : k ∉ c.cache.getD []) (hne : c.maxEntries ≠ 0)
    (hgt : ((c.ll.getD []).length : Int) + 1 > c.maxEntries) :
    addBody c k v
      = RemoveOldest
          { c with
            cache := some (k :: c.cache.getD []),
            ll := some ((k, v) :: c.ll.getD []) } := by
  simp only [addBody]
  rw [if_neg hk, if_pos]
  exact ⟨hne, by rw [List.length_cons]; push_cast; omega⟩

theorem RemoveOldest_last {c : Cache K V} {s : List K} {e : K × V}
    (hc : c.cache = some s) (hl : (c.ll.getD []).getLast? = some e) :
    RemoveOldest c = removeElement c e := by
  simp only [RemoveOldest, hc, hl]

/-- One capacity-triggered eviction step: adding a fresh key to a cache at
its (positive) capacity keeps the length at the maximum, removes exactly
the back (least-recently-used) element, and logs exactly that element with
the callback when one is configured. -/
theorem Add_at_capacity {c : Cache K V} {k : K} (v : V) (hw : WF c)
    (hpos : 0 < c.maxEntries) (hk : k ∉ c.cache.getD [])
    (hlen : Len c = c.maxEntries) :
    ∃ e, (c.ll.getD []).getLast? = some e ∧
      Len (Add c k v) = c.maxEntries ∧
      (Add c k v).ll = some ((k, v) :: eraseKey e.1 (c.ll.getD [])) ∧
      e.1 ∉ llKeys (Add c k v) ∧
      (Add c k v).evLog = (if c.hasOnEvicted then c.evLog ++ [e] else c.evLog) := by
  obtain ⟨h1, h2, h3, h4⟩ := hw
  simp only [llKeys] at h2 h4
  cases hc : c.cache with
  | none => simp only [Len, hc] at hlen; omega
  | some s =>
    cases hll : c.ll with
    | none => exact Option.noConfusion (hc ▸ h1.mp hll)
    | some l =>
      simp only [hc, hll, Option.getD_some] at h2 h3 h4 hk ⊢
      simp only [Len, hc, hll, Option.getD_some] at hlen
      have hlpos : 0 < l.length := by omega
      have hlne : l ≠ [] := List.ne_nil_of_length_pos hlpos
      obtain ⟨e, he⟩ : ∃ e, l.getLast? = some e :=
        Option.isSome_iff_exists.mp (List.getLast?_isSome.mpr hlne)
      have hmem : e ∈ l := List.mem_of_getLast?_eq_some he
      have hkey : e.1 ∈ l.map Prod.fst := List.mem_map_of_mem Prod.fst hmem
      have hek : e.1 ≠ k := fun hx => hk (hx ▸ (h4 e.1).mp hkey)
      obtain ⟨e', he'⟩ := exists_findEntry (V := V) hkey
      have hstep : Add c k v
          = RemoveOldest
              { c with
                cache := some (k :: c.cache.getD []),
                ll := some ((k, v) :: c.ll.getD []) } := by
        rw [Add_eq_addBody hc]
        refine addBody_fresh_evict v ?_ (by omega) ?_
        · rw [hc, Option.getD_some]; exact hk
        · rw [hll, Option.getD_some, hlen]; omega
      have hlast : ((k, v) :: l).getLast? = some e := by
        obtain ⟨b, t, rfl⟩ := List.exists_cons_of_ne_nil hlne
        rw [List.getLast?_cons_cons]
        exact he
      have hro : Add c k v
          = removeElement
              { c with
                cache := some (k :: c.cache.getD []),
                ll := some ((k, v) :: c.ll.getD []) } e := by
        rw [hstep]
        refine RemoveOldest_last rfl ?_
        simp only [hll, Option.getD_some]
        exact hlast
      have herase : eraseKey e.1 ((k, v) :: l) = (k, v) :: eraseKey e.1 l := by
        rw [eraseKey, if_neg (fun hkk : k = e.1 => hek hkk.symm)]
      refine ⟨e, he, ?_, ?_, ?_, ?_⟩
      · rw [hro]
        simp only [removeElement, Len, Option.map_some', hll, hc, Option.getD_some]
        rw [herase, List.length_cons, ← length_eraseKey_of_found he']
        exact hlen
      · rw [hro]
        simp only [removeElement, Option.map_some', hll, Option.getD_some]
        rw [herase]
      · rw [hro]
        simp only [removeElement, llKeys, Option.map_some', hll, Option.getD_some]
        rw [herase]
        simp only [List.map_cons, map_fst_eraseKey]
        intro hcon
        rcases List.mem_cons.mp hcon with h' | h'
        · exact hek h'
        · exact not_mem_eraseK h2 h'
      · rw [hro]
        simp only [removeElement]

end LRU

/-! ### Filling a cache with fresh keys -/

namespace LRU

variable {K V : Type} [DecidableEq K]

theorem wf_addAll {c : Cache K V} (hw : WF c) (ps : List (K × V)) :
    WF (addAll c ps) := by
  induction ps generalizing c with
  | nil => exact hw
  | cons p t ih => exact ih (wf_Add hw p.1 p.2)

theorem addAll_append (c : Cache K V) (a b : List (K × V)) :
    addAll c (a ++ b) = addAll (addAll c a) b := by
  simp only [addAll, List.foldl_append]

/-- Inserting a list of pairwise-fresh keys that fits under the capacity
(or with an unlimited cache) pushes them all to the front, in order, with
no eviction. -/
theorem addAll_fresh (ps : List (K × V)) :
    ∀ {c : Cache K V} {cm : List K} {l : List (K × V)},
    c.cache = some cm → c.ll = some l →
    (∀ x ∈ ps.map Prod.fst, x ∉ cm) →
    ((l.length : Int) + ps.length ≤ c.maxEntries ∨ c.maxEntries = 0) →
    (ps.map Prod.fst).Nodup →
    addAll c ps
      = { c with
          cache := some ((ps.map Prod.fst).reverse ++ cm),
          ll := some (ps.reverse ++ l) } := by
  induction ps with
  | nil =>
    intro c cm l hc hll _ _ _
    simp only [addAll, List.foldl_nil, List.map_nil, List.reverse_nil,
      List.nil_append, ← hc, ← hll]
  | cons p t ih =>
    intro c cm l hc hll hfresh hcap hnd
    have hpf : p.1 ∉ cm := hfresh p.1 (by simp)
    have hstep : Add c p.1 p.2
        = { c with
            cache := some (p.1 :: cm),
            ll := some (p :: l) } := by
      rw [Add_eq_addBody hc]
      have := addBody_fresh_noevict (c := c) (k := p.1) p.2
        (by rw [hc, Option.getD_some]; exact hpf)
        (by
          rcases hcap with h | h
          · right
            rw [hll, Option.getD_some]
            simp only [List.length_cons] at h
            push_cast at h ⊢
            omega
          · exact Or.inl h)
      rw [this, hc, hll, Option.getD_some, Option.getD_some]
    have hgoal : addAll c (p :: t) = addAll (Add c p.1 p.2) t := by
      simp only [addAll, List.foldl_cons]
    rw [hgoal, hstep]
    rw [List.map_cons, List.nodup_cons] at hnd
    have hih := ih (c := { c with cache := some (p.1 :: cm), ll := some (p :: l) })
      rfl rfl
      (fun x hx hmemc => by
        rcases List.mem_cons.mp hmemc with h | h
        · exact hnd.1 (h ▸ hx)
        · exact hfresh x (List.mem_cons_of_mem _ hx) h)
      (by
        rcases hcap with h | h
        · left
          simp only [List.length_cons] at h ⊢
          push_cast at h ⊢
          omega
        · exact Or.inr h)
      hnd.2
    rw [hih]
    simp only [List.map_cons, List.reverse_cons, List.append_assoc,
      List.singleton_append]

end LRU

/-! ### Claim C1 — capacity-triggered LRU eviction -/

namespace LRU

variable {K V : Type} [DecidableEq K]

theorem addBody_evLog_unlimited {c : Cache K V} (h0 : c.maxEntries = 0)
    (k : K) (v : V) : (addBody c k v).evLog = c.evLog := by
  simp only [addBody]
  split
  · split <;> rfl
  · split
    · rename_i h
      exact absurd h0 h.1
    · rfl

theorem Add_evLog_unlimited {c : Cache K V} (h0 : c.maxEntries = 0)
    (k : K) (v : V) : (Add c k v).evLog = c.evLog := by
  cases hc : c.cache with
  | none =>
    simp only [Add, hc]
    exact addBody_evLog_unlimited
      (c := { c with cache := some [], ll := some [] }) h0 k v
  | some s =>
    simp only [Add, hc]
    exact addBody_evLog_unlimited h0 k v

theorem addBody_len_fresh {c : Cache K V} {k : K} (v : V)
    (hk : k ∉ c.cache.getD [])
    (hcap : c.maxEntries = 0 ∨ ((c.ll.getD []).length : Int) + 1 ≤ c.maxEntries) :
    Len (addBody c k v) = ((c.ll.getD []).length : Int) + 1 := by
  rw [addBody_fresh_noevict v hk hcap]
  simp only [Len, Option.getD_some, List.length_cons]
  push_cast
  ring

theorem Add_len_unlimited {c : Cache K V} (h0 : c.maxEntries = 0) {k : K}
    (v : V) (hk : k ∉ c.cache.getD []) : Len (Add c k v) = Len c + 1 := by
  cases hc : c.cache with
  | none =>
    simp only [Add, hc]
    exact (addBody_len_fresh (c := { c with cache := some [], ll := some [] })
      v (by simp) (Or.inl h0)).trans (by simp [Len, hc])
  | some s =>
    simp only [Add, hc]
    exact (addBody_len_fresh v hk (Or.inl h0)).trans (by simp [Len, hc])

/-- Claim C1: (i) adding a fresh key to a cache at its positive capacity
immediately evicts the least-recently-used entry and the length stays at
the maximum; (ii) inserting N+1 distinct keys into a fresh cache with
maximum N evicts exactly the first-inserted key and the length ends at N;
(iii) with maximum zero no capacity-triggered eviction occurs. -/
theorem claim_C1 :
    (∀ (c : Cache K V) (k : K) (v : V), WF c → 0 < c.maxEntries →
      k ∉ c.cache.getD [] → Len c = c.maxEntries →
      ∃ e, (c.ll.getD []).getLast? = some e ∧
        Len (Add c k v) = c.maxEntries ∧
        (Add c k v).ll = some ((k, v) :: eraseKey e.1 (c.ll.getD [])) ∧
        e.1 ∉ llKeys (Add c k v) ∧
        (Add c k v).evLog = (if c.hasOnEvicted then c.evLog ++ [e] else c.evLog))
    ∧ (∀ (N : Nat) (p z : K × V) (mid : List (K × V)), 0 < N →
        ((p :: mid ++ [z]).map Prod.fst).Nodup →
        (p :: mid).length = N →
        Len (addAll { New K V (N : Int) with hasOnEvicted := true }
            (p :: mid ++ [z])) = (N : Int)
        ∧ (addAll { New K V (N : Int) with hasOnEvicted := true }
            (p :: mid ++ [z])).ll = some (z :: mid.reverse)
        ∧ (addAll { New K V (N : Int) with hasOnEvicted := true }
            (p :: mid ++ [z])).evLog = [p]
        ∧ p.1 ∉ llKeys (addAll { New K V (N : Int) with hasOnEvicted := true }
            (p :: mid ++ [z])))
    ∧ (∀ (c : Cache K V) (k : K) (v : V), c.maxEntries = 0 →
        (Add c k v).evLog = c.evLog
        ∧ (k ∉ c.cache.getD [] → Len (Add c k v) = Len c + 1)) := by
  refine ⟨?_, ?_, ?_⟩
  · intro c k v hw hpos hk hlen
    exact Add_at_capacity v hw hpos hk hlen
  · intro N p z mid hN hnd hlenN
    have hnd' : ((p :: mid).map Prod.fst ++ [z.1]).Nodup := by simpa using hnd
    have hndp : ((p :: mid).map Prod.fst).Nodup := hnd'.of_append_left
    have hzfresh : z.1 ∉ (p :: mid).map Prod.fst :=
      fun hm => (List.disjoint_of_nodup_append hnd') hm (by simp)
    have hpmid : p.1 ∉ mid.map Prod.fst := by
      rw [List.map_cons, List.nodup_cons] at hndp
      exact fun hm => hndp.1 hm
    have hfill := addAll_fresh (K := K) (V := V) (p :: mid)
      (c := { New K V (N : Int) with hasOnEvicted := true }) rfl rfl
      (fun x _ hx => absurd hx (List.not_mem_nil x))
      (by
        left
        show ((([] : List (K × V)).length : Int) + ((p :: mid).length : Int))
          ≤ (N : Int)
        simp only [List.length_nil, Nat.cast_zero, zero_add, hlenN]
        exact le_refl _)
      hndp
    simp only [List.append_nil] at hfill
    have hsplit : addAll { New K V (N : Int) with hasOnEvicted := true }
        (p :: mid ++ [z])
        = Add { { New K V (N : Int) with hasOnEvicted := true } with
            cache := some (((p :: mid).map Prod.fst).reverse),
            ll := some ((p :: mid).reverse) } z.1 z.2 := by
      rw [show p :: mid ++ [z] = (p :: mid) ++ [z] from rfl, addAll_append, hfill]
      rfl
    have hwc1 : WF { { New K V (N : Int) with hasOnEvicted := true } with
        cache := some (((p :: mid).map Prod.fst).reverse),
        ll := some ((p :: mid).reverse) } :=
      hfill ▸ wf_addAll (wf_mk (by simp) (by simp) (by simp)) (p :: mid)
    obtain ⟨e, hegl, hLen, hllf, hnotin, hev⟩ :=
      Add_at_capacity (c := { { New K V (N : Int) with hasOnEvicted := true } with
          cache := some (((p :: mid).map Prod.fst).reverse),
          ll := some ((p :: mid).reverse) })
        (k := z.1) z.2 hwc1
        (by show (0 : Int) < (N : Int); exact_mod_cast hN)
        (by
          show z.1 ∉ ((p :: mid).map Prod.fst).reverse
          rw [List.mem_reverse]
          exact hzfresh)
        (by
          show (((p :: mid).reverse.length : Int)) = (N : Int)
          rw [List.length_reverse, hlenN])
    have hep : e = p := by
      rw [Option.getD_some, List.reverse_cons, List.getLast?_concat] at hegl
      exact (Option.some.inj hegl).symm
    subst hep
    have herase : eraseKey e.1 ((e :: mid).reverse) = mid.reverse := by
      rw [List.reverse_cons]
      rw [eraseKey_append_of_not_mem]
      · rw [show eraseKey e.1 [e] = [] from by simp [eraseKey], List.append_nil]
      · rw [List.map_reverse, List.mem_reverse]
        exact hpmid
    refine ⟨?_, ?_, ?_, ?_⟩
    · rw [hsplit]
      exact hLen
    · rw [hsplit, hllf]
      show some ((z.1, z.2) :: eraseKey e.1 ((e :: mid).reverse))
        = some (z :: mid.reverse)
      rw [herase]
    · rw [hsplit, hev]
      rfl
    · rw [hsplit]
      exact hnotin
  · intro c k v h0
    exact ⟨Add_evLog_unlimited h0 k v, fun hk => Add_len_unlimited h0 v hk⟩

end LRU

namespace LRU

/-- Witness for C1 at concrete inputs: a capacity-2 cache holding keys 1, 2
receives fresh key 3; the two-key scenario of part (ii); and an unlimited
cache accepting key 5. -/
theorem claim_C1_witness :
    (∃ e, ((addAll (New Nat Nat 2) [(1, 10), (2, 20)]).ll.getD []).getLast?
        = some e ∧
      Len (Add (addAll (New Nat Nat 2) [(1, 10), (2, 20)]) 3 30)
        = (addAll (New Nat Nat 2) [(1, 10), (2, 20)]).maxEntries ∧
      (Add (addAll (New Nat Nat 2) [(1, 10), (2, 20)]) 3 30).ll
        = some ((3, 30) :: eraseKey e.1
            ((addAll (New Nat Nat 2) [(1, 10), (2, 20)]).ll.getD [])) ∧
      e.1 ∉ llKeys (Add (addAll (New Nat Nat 2) [(1, 10), (2, 20)]) 3 30) ∧
      (Add (addAll (New Nat Nat 2) [(1, 10), (2, 20)]) 3 30).evLog
        = (if (addAll (New Nat Nat 2) [(1, 10), (2, 20)]).hasOnEvicted
            then (addAll (New Nat Nat 2) [(1, 10), (2, 20)]).evLog ++ [e]
            else (addAll (New Nat Nat 2) [(1, 10), (2, 20)]).evLog))
    ∧ (Len (addAll { New Nat Nat ((2 : Nat) : Int) with hasOnEvicted := true }
          ((1, 10) :: [(2, 20)] ++ [(3, 30)])) = ((2 : Nat) : Int)
        ∧ (addAll { New Nat Nat ((2 : Nat) : Int) with hasOnEvicted := true }
            ((1, 10) :: [(2, 20)] ++ [(3, 30)])).ll
          = some ((3, 30) :: [(2, 20)].reverse)
        ∧ (addAll { New Nat Nat ((2 : Nat) : Int) with hasOnEvicted := true }
            ((1, 10) :: [(2, 20)] ++ [(3, 30)])).evLog = [(1, 10)]
        ∧ (1, 10).1 ∉ llKeys (addAll
            { New Nat Nat ((2 : Nat) : Int) with hasOnEvicted := true }
            ((1, 10) :: [(2, 20)] ++ [(3, 30)])))
    ∧ (Add (New Nat Nat 0) 5 50).evLog = (New Nat Nat 0).evLog
    ∧ Len (Add (New Nat Nat 0) 5 50) = Len (New Nat Nat 0) + 1 :=
  ⟨claim_C1.1 (addAll (New Nat Nat 2) [(1, 10), (2, 20)]) 3 30
      (wf_addAll (wf_New 2) _) (by decide) (by decide) (by decide),
   claim_C1.2.1 2 (1, 10) (3, 30) [(2, 20)] (by decide) (by decide) (by decide),
   (claim_C1.2.2 (New Nat Nat 0) 5 50 rfl).1,
   (claim_C1.2.2 (New Nat Nat 0) 5 50 rfl).2 (by decide)⟩

/-- Witness for C10: the zero-value cache reached by clearing a fresh
cache. -/
theorem claim_C10_witness :
    (Get (Clear (New Nat Nat 0)) 7 = (none, false, Clear (New Nat Nat 0))
      ∧ Remove (Clear (New Nat Nat 0)) 7 = Clear (New Nat Nat 0)
      ∧ RemoveOldest (Clear (New Nat Nat 0)) = Clear (New Nat Nat 0)
      ∧ Len (Clear (New Nat Nat 0)) = 0)
    ∧ Clear (Clear (New Nat Nat 0)) = Clear (New Nat Nat 0)
    ∧ Add (Clear (New Nat Nat 0)) 7 42
        = { Clear (New Nat Nat 0) with cache := some [7], ll := some [(7, 42)] } :=
  ⟨claim_C10.1 (Clear (New Nat Nat 0)) 7 rfl,
   claim_C10.2.1 (Clear (New Nat Nat 0)) rfl rfl,
   claim_C10.2.2.2 (Clear (New Nat Nat 0)) 7 42 rfl (Or.inl rfl)⟩

end LRU

/-! ### Claim C5 — Get promotes to most-recently-used -/

namespace LRU

variable {K V : Type} [DecidableEq K]

/-- Claim C5: a `Get` hit returns the stored value with `true` and moves
the entry to the front of the recency list (most-recently-used); in the
concrete scenario (capacity set appropriately at 3 for the three keys),
after inserting 1, 2, 3, touching 1, and inserting 4, the evicted entry is
key 2 — key 1 survives because the hit promoted it. -/
theorem claim_C5 :
    (∀ (c : Cache K V) (k : K), WF c → k ∈ c.cache.getD [] →
      ∃ e, findEntry k (c.ll.getD []) = some e ∧
        Get c k = (some e.2, true,
          { c with ll := some (e :: eraseKey k (c.ll.getD [])) }))
    ∧ (run { New Nat Nat 3 with hasOnEvicted := true }
        [Op.add 1 10, Op.add 2 20, Op.add 3 30, Op.get 1, Op.add 4 40]).evLog
      = [(2, 20)]
    ∧ (run { New Nat Nat 3 with hasOnEvicted := true }
        [Op.add 1 10, Op.add 2 20, Op.add 3 30, Op.get 1, Op.add 4 40]).ll
      = some [(4, 40), (1, 10), (3, 30)]
    ∧ (1 : Nat) ∈ llKeys (run { New Nat Nat 3 with hasOnEvicted := true }
        [Op.add 1 10, Op.add 2 20, Op.add 3 30, Op.get 1, Op.add 4 40])
    ∧ (run { New Nat Nat 2 with hasOnEvicted := true }
        [Op.add 1 10, Op.add 2 20, Op.add 3 30, Op.get 1, Op.add 4 40]).evLog
      = [(1, 10), (2, 20)] := by
  refine ⟨?_, by decide, by decide, by decide, by decide⟩
  intro c k hw hk
  obtain ⟨h1, h2, h3, h4⟩ := hw
  simp only [llKeys] at h2 h4
  cases hc : c.cache with
  | none => rw [hc] at hk; exact absurd hk (List.not_mem_nil k)
  | some s =>
    cases hll : c.ll with
    | none => exact Option.noConfusion (hc ▸ h1.mp hll)
    | some l =>
      rw [hc, Option.getD_some] at hk
      simp only [hc, hll, Option.getD_some] at h4 ⊢
      obtain ⟨e, he⟩ := exists_findEntry (V := V) ((h4 k).mpr hk)
      refine ⟨e, he, ?_⟩
      simp only [Get, hc, hll, Option.getD_some, Option.map_some']
      rw [if_pos hk, he]
      rw [moveToFront, he]

end LRU

/-! ### Claim C6 support — eviction callback accounting -/

namespace LRU

variable {K V : Type} [DecidableEq K]

theorem filterMap_findEntry_perm :
    ∀ (cm : List K) (l : List (K × V)), cm.Nodup → (l.map Prod.fst).Nodup →
    (∀ x, x ∈ cm ↔ x ∈ l.map Prod.fst) →
    (cm.filterMap (fun k => findEntry k l)).Perm l := by
  intro cm
  induction cm with
  | nil =>
    intro l _ _ hiff
    cases l with
    | nil => simp
    | cons e t => exact absurd ((hiff e.1).mpr (by simp)) (List.not_mem_nil e.1)
  | cons k cm' ih =>
    intro l hnd hndl hiff
    rcases List.nodup_cons.mp hnd with ⟨hkcm, hnd'⟩
    have hkl : k ∈ l.map Prod.fst := (hiff k).mp (by simp)
    obtain ⟨e, he⟩ := exists_findEntry (V := V) hkl
    rw [List.filterMap_cons_some (f := fun x => findEntry x l) he]
    have hcongr : cm'.filterMap (fun x => findEntry x l)
        = cm'.filterMap (fun x => findEntry x (eraseKey k l)) :=
      List.filterMap_congr
        (fun x hx => (findEntry_eraseKey_ne
          (fun hxk : x = k => hkcm (hxk ▸ hx)) l).symm)
    rw [hcongr]
    have hperm := ih (eraseKey k l) hnd'
      (by rw [map_fst_eraseKey]; exact nodup_eraseK hndl)
      (fun x => by
        rw [map_fst_eraseKey, mem_eraseK_iff hndl]
        constructor
        · intro hx
          exact ⟨fun hxk => hkcm (hxk ▸ hx), (hiff x).mp (List.mem_cons_of_mem k hx)⟩
        · rintro ⟨hxk, hxl⟩
          rcases List.mem_cons.mp ((hiff x).mpr hxl) with h | h
          · exact absurd h hxk
          · exact h)
    exact (hperm.cons e).trans (perm_cons_eraseKey he).symm

theorem clearEntries_perm {c : Cache K V} (hw : WF c) :
    (clearEntries c).Perm (c.ll.getD []) := by
  obtain ⟨h1, h2, h3, h4⟩ := hw
  simp only [llKeys] at h2 h4
  exact filterMap_findEntry_perm _ _ h3 h2 (fun x => (h4 x).symm)

theorem Clear_evLog {c : Cache K V} (hfl : c.hasOnEvicted = true) :
    (Clear c).evLog = c.evLog ++ clearEntries c := by
  simp [Clear, hfl]

theorem Remove_present_evLog {c : Cache K V} {k : K} (hw : WF c)
    (hfl : c.hasOnEvicted = true) (hk : k ∈ c.cache.getD []) :
    ∃ e, findEntry k (c.ll.getD []) = some e ∧ e.1 = k ∧ e ∈ c.ll.getD []
      ∧ (Remove c k).evLog = c.evLog ++ [e] := by
  obtain ⟨h1, h2, h3, h4⟩ := hw
  simp only [llKeys] at h2 h4
  cases hc : c.cache with
  | none => rw [hc] at hk; exact absurd hk (List.not_mem_nil k)
  | some s =>
    rw [hc, Option.getD_some] at hk
    obtain ⟨e, he⟩ := exists_findEntry (V := V) ((h4 k).mpr (by rw [hc, Option.getD_some]; exact hk))
    refine ⟨e, he, (findEntry_some he).2, (findEntry_some he).1, ?_⟩
    simp only [Remove, hc]
    rw [if_pos hk, he]
    simp [removeElement, hfl]

theorem RemoveOldest_evLog {c : Cache K V} {s : List K} {e : K × V}
    (hc : c.cache = some s) (hl : (c.ll.getD []).getLast? = some e)
    (hfl : c.hasOnEvicted = true) :
    (RemoveOldest c).evLog = c.evLog ++ [e] := by
  rw [RemoveOldest_last hc hl]
  simp [removeElement, hfl]

theorem removeElement_balance {c : Cache K V} {s : List K} {e : K × V}
    (hc : c.cache = some s) (hmem : e.1 ∈ (c.ll.getD []).map Prod.fst) :
    Len (removeElement c e) + 1 = Len c
    ∧ ((removeElement c e).evLog.length : Int)
      = (c.evLog.length : Int) + (if c.hasOnEvicted then 1 else 0) := by
  constructor
  · cases hll : c.ll with
    | none => rw [hll] at hmem; simp at hmem
    | some l =>
      rw [hll, Option.getD_some] at hmem
      obtain ⟨e', he'⟩ := exists_findEntry hmem
      simp only [removeElement, Len, hc, hll, Option.map_some', Option.getD_some]
      rw [length_eraseKey_of_found he']
      push_cast
      ring
  · simp only [removeElement]
    by_cases hf : c.hasOnEvicted <;> simp [hf]

theorem Get_state_balance {c : Cache K V} (hw : WF c) (k : K) :
    Len ((Get c k).2.2) = Len c ∧ ((Get c k).2.2).evLog = c.evLog := by
  obtain ⟨h1, h2, h3, h4⟩ := hw
  simp only [llKeys] at h2 h4
  unfold Get
  split
  · exact ⟨rfl, rfl⟩
  · rename_i s hc
    split
    · rename_i hk
      split
      · rename_i e he
        cases hll : c.ll with
        | none => exact Option.noConfusion (hc ▸ h1.mp hll)
        | some l =>
          rw [hll, Option.getD_some] at he
          constructor
          · simp only [Len, hc, hll, Option.map_some', Option.getD_some]
            rw [moveToFront, he, List.length_cons, length_eraseKey_of_found he]
          · rfl
      · exact ⟨rfl, rfl⟩
    · exact ⟨rfl, rfl⟩

end LRU

namespace LRU

variable {K V : Type} [DecidableEq K]

theorem addBody_balance {c : Cache K V} (hw : WF c) (hfl : c.hasOnEvicted = true)
    {s : List K} (hc : c.cache = some s) (k : K) (v : V) :
    ((addBody c k v).evLog.length : Int) + Len (addBody c k v)
      = (c.evLog.length : Int) + Len c + (if k ∈ s then 0 else 1) := by
  obtain ⟨h1, h2, h3, h4⟩ := hw
  simp only [llKeys] at h2 h4
  cases hll : c.ll with
  | none => exact Option.noConfusion (hc ▸ h1.mp hll)
  | some l =>
    simp only [hc, hll, Option.getD_some] at h2 h4
    have hLc : Len c = (l.length : Int) := by simp [Len, hc, hll]
    by_cases hk : k ∈ s
    · rw [if_pos hk]
      have hk' : k ∈ c.cache.getD [] := by rw [hc, Option.getD_some]; exact hk
      obtain ⟨e, he⟩ := exists_findEntry (V := V) ((h4 k).mpr hk)
      have he' : findEntry k (c.ll.getD []) = some e := by
        rw [hll, Option.getD_some]; exact he
      rw [addBody_update hk' he']
      have hlen := length_eraseKey_of_found he
      simp only [Len, Option.getD_some, hll, hc, List.length_cons]
      push_cast
      omega
    · rw [if_neg hk]
      have hk' : k ∉ c.cache.getD [] := by rw [hc, Option.getD_some]; exact hk
      by_cases hcap : c.maxEntries ≠ 0 ∧ (l.length : Int) + 1 > c.maxEntries
      · rw [addBody_fresh_evict v hk' hcap.1
          (by rw [hll, Option.getD_some]; exact hcap.2)]
        obtain ⟨e, he⟩ : ∃ e, ((k, v) :: l).getLast? = some e :=
          Option.isSome_iff_exists.mp
            (List.getLast?_isSome.mpr (List.cons_ne_nil _ _))
        have hmem : e.1 ∈ ((k, v) :: l).map Prod.fst :=
          List.mem_map_of_mem Prod.fst (List.mem_of_getLast?_eq_some he)
        rw [RemoveOldest_last rfl
          (by simp only [Option.getD_some, hll]; exact he)]
        obtain ⟨hbal1, hbal2⟩ := removeElement_balance
          (c := { c with
                  cache := some (k :: c.cache.getD []),
                  ll := some ((k, v) :: c.ll.getD []) })
          rfl
          (by simp only [Option.getD_some, hll]; exact hmem)
        have hev : ({ c with
            cache := some (k :: c.cache.getD []),
            ll := some ((k, v) :: c.ll.getD []) } : Cache K V).evLog = c.evLog := rfl
        have hLc2 : Len { c with
            cache := some (k :: c.cache.getD []),
            ll := some ((k, v) :: c.ll.getD []) } = (l.length : Int) + 1 := by
          simp only [Len, Option.getD_some, hll, List.length_cons]
          push_cast
          ring
        rw [hbal2, hev, if_pos (show ({ c with
            cache := some (k :: c.cache.getD []),
            ll := some ((k, v) :: c.ll.getD []) } : Cache K V).hasOnEvicted = true
          from hfl)]
        rw [hLc2] at hbal1
        rw [hLc]
        omega
      · rw [addBody_fresh_noevict v hk'
          (by
            by_cases h0 : c.maxEntries = 0
            · exact Or.inl h0
            · right
              rw [hll, Option.getD_some]
              have hnot : ¬((l.length : Int) + 1 > c.maxEntries) :=
                fun hgt => hcap ⟨h0, hgt⟩
              omega)]
        simp only [Len, hc, Option.getD_some, hll, List.length_cons]
        push_cast
        omega

end LRU

namespace LRU

variable {K V : Type} [DecidableEq K]

theorem hasOnEvicted_RemoveOldest (c : Cache K V) :
    (RemoveOldest c).hasOnEvicted = c.hasOnEvicted := by
  unfold RemoveOldest
  split
  · rfl
  · split <;> rfl

theorem hasOnEvicted_Remove (c : Cache K V) (k : K) :
    (Remove c k).hasOnEvicted = c.hasOnEvicted := by
  unfold Remove
  split
  · rfl
  · split
    · split <;> rfl
    · rfl

theorem hasOnEvicted_Get (c : Cache K V) (k : K) :
    ((Get c k).2.2).hasOnEvicted = c.hasOnEvicted := by
  unfold Get
  split
  · rfl
  · split
    · split <;> rfl
    · rfl

theorem hasOnEvicted_addBody (c : Cache K V) (k : K) (v : V) :
    (addBody c k v).hasOnEvicted = c.hasOnEvicted := by
  simp only [addBody]
  split
  · split <;> rfl
  · split
    · exact hasOnEvicted_RemoveOldest _
    · rfl

theorem hasOnEvicted_Add (c : Cache K V) (k : K) (v : V) :
    (Add c k v).hasOnEvicted = c.hasOnEvicted := by
  unfold Add
  split
  · exact hasOnEvicted_addBody _ k v
  · exact hasOnEvicted_addBody _ k v

theorem hasOnEvicted_step (c : Cache K V) (op : Op K V) :
    (step c op).hasOnEvicted = c.hasOnEvicted := by
  cases op with
  | add k v => exact hasOnEvicted_Add c k v
  | get k => exact hasOnEvicted_Get c k
  | remove k => exact hasOnEvicted_Remove c k
  | removeOldest => exact hasOnEvicted_RemoveOldest c
  | clear => rfl

/-- Per-operation callback accounting: the log grows by exactly the number
of entries the operation removes. -/
theorem step_balance {c : Cache K V} (hw : WF c) (hfl : c.hasOnEvicted = true)
    (op : Op K V) :
    ((step c op).evLog.length : Int) + Len (step c op)
      = (c.evLog.length : Int) + Len c + insertedCount c op := by
  cases op with
  | get k =>
    obtain ⟨hL, hE⟩ := Get_state_balance hw k
    simp only [step, insertedCount, hL, hE]
    ring
  | clear =>
    have hcl : (Clear c).evLog = c.evLog ++ clearEntries c := Clear_evLog hfl
    have hlen0 : Len (Clear c) = 0 := by simp [Clear, Len]
    have hce : (clearEntries c).length = (c.ll.getD []).length :=
      (clearEntries_perm hw).length_eq
    simp only [step, insertedCount, hcl, hlen0, List.length_append, hce]
    cases hc : c.cache with
    | none =>
      have hll : c.ll = none := hw.1.mpr hc
      simp [Len, hc, hll]
    | some s =>
      simp only [Len, hc]
      push_cast
      ring
  | remove k =>
    simp only [step, insertedCount]
    cases hc : c.cache with
    | none =>
      have : Remove c k = c := by simp only [Remove, hc]
      rw [this]
      ring
    | some s =>
      by_cases hk : k ∈ s
      · have hk' : k ∈ c.cache.getD [] := by rw [hc, Option.getD_some]; exact hk
        obtain ⟨e, he⟩ := exists_findEntry (V := V) ((hw.2.2.2 k).mpr hk')
        have hrm : Remove c k = removeElement c e := by
          simp only [Remove, hc]
          rw [if_pos hk]
          have he' : findEntry k (c.ll.getD []) = some e := he
          rw [he']
        have hmem : e.1 ∈ (c.ll.getD []).map Prod.fst := by
          rw [(findEntry_some he).2]
          exact (hw.2.2.2 k).mpr hk'
        obtain ⟨hbal1, hbal2⟩ := removeElement_balance hc hmem
        rw [hrm, hbal2, if_pos hfl]
        omega
      · have hk' : k ∉ c.cache.getD [] := by rw [hc, Option.getD_some]; exact hk
        rw [Remove_absent hk']
        ring
  | removeOldest =>
    simp only [step, insertedCount]
    cases hc : c.cache with
    | none =>
      have : RemoveOldest c = c := by simp only [RemoveOldest, hc]
      rw [this]
      ring
    | some s =>
      cases hl : (c.ll.getD []).getLast? with
      | none =>
        have : RemoveOldest c = c := by simp only [RemoveOldest, hc, hl]
        rw [this]
        ring
      | some e =>
        have hmem : e.1 ∈ (c.ll.getD []).map Prod.fst :=
          List.mem_map_of_mem Prod.fst (List.mem_of_getLast?_eq_some hl)
        obtain ⟨hbal1, hbal2⟩ := removeElement_balance hc hmem
        rw [RemoveOldest_last hc hl, hbal2, if_pos hfl]
        omega
  | add k v =>
    simp only [step]
    cases hc : c.cache with
    | none =>
      have hins : insertedCount c (Op.add k v) = 1 := by
        simp [insertedCount, hc]
      rw [hins]
      simp only [Add, hc]
      have hbal := addBody_balance
        (c := { c with cache := some [], ll := some [] })
        (wf_mk (by simp) (by simp) (by simp)) hfl rfl k v
      rw [hbal]
      have hL0 : Len
          { c with
            cache := some ([] : List K),
            ll := some ([] : List (K × V)) } = 0 := by simp [Len]
      have hLc : Len c = 0 := by simp [Len, hc]
      rw [hL0, hLc]
      simp
    | some s =>
      have hins : insertedCount c (Op.add k v)
          = (if k ∈ s then 0 else 1) := by
        simp [insertedCount, hc]
      rw [hins, Add_eq_addBody hc]
      exact addBody_balance hw hfl hc k v

end LRU

namespace LRU

variable {K V : Type} [DecidableEq K]

/-- Run-level callback accounting: total log growth equals the total
number of entries removed along the sequence. -/
theorem run_evLog_total {c : Cache K V} (hw : WF c)
    (hfl : c.hasOnEvicted = true) (ops : List (Op K V)) :
    ((run c ops).evLog.length : Int)
      = (c.evLog.length : Int) + removedTotal c ops := by
  induction ops generalizing c with
  | nil => simp [run, removedTotal]
  | cons op t ih =>
    have hstep := step_balance hw hfl op
    have hrun : run c (op :: t) = run (step c op) t := by simp [run]
    rw [hrun, ih (wf_step hw op) (by rw [hasOnEvicted_step]; exact hfl)]
    simp only [removedTotal, removedCount]
    omega

/-- Claim C6: with an eviction callback configured, `Remove`,
`RemoveOldest`, capacity eviction and `Clear` each invoke the callback
exactly once per removed entry, with that entry's original key and value;
per operation and over whole operation sequences the number of callback
invocations equals the number of entries removed. -/
theorem claim_C6 :
    (∀ (c : Cache K V) (k : K), WF c → c.hasOnEvicted = true →
      k ∈ c.cache.getD [] →
      ∃ e, findEntry k (c.ll.getD []) = some e ∧ e.1 = k ∧ e ∈ c.ll.getD []
        ∧ (Remove c k).evLog = c.evLog ++ [e])
    ∧ (∀ (c : Cache K V) (s : List K) (e : K × V), c.cache = some s →
        (c.ll.getD []).getLast? = some e → c.hasOnEvicted = true →
        (RemoveOldest c).evLog = c.evLog ++ [e])
    ∧ (∀ (c : Cache K V) (k : K) (v : V), WF c → c.hasOnEvicted = true →
        0 < c.maxEntries → k ∉ c.cache.getD [] → Len c = c.maxEntries →
        ∃ e, (c.ll.getD []).getLast? = some e
          ∧ (Add c k v).evLog = c.evLog ++ [e])
    ∧ (∀ c : Cache K V, WF c → c.hasOnEvicted = true →
        (Clear c).evLog = c.evLog ++ clearEntries c
        ∧ (clearEntries c).Perm (c.ll.getD [])
        ∧ ((Clear c).evLog.length : Int) = (c.evLog.length : Int) + Len c)
    ∧ (∀ (c : Cache K V) (op : Op K V), WF c → c.hasOnEvicted = true →
        ((step c op).evLog.length : Int)
          = (c.evLog.length : Int) + removedCount c op)
    ∧ (∀ (c : Cache K V) (ops : List (Op K V)), WF c → c.hasOnEvicted = true →
        ((run c ops).evLog.length : Int)
          = (c.evLog.length : Int) + removedTotal c ops) := by
  refine ⟨?_, ?_, ?_, ?_, ?_, ?_⟩
  · intro c k hw hfl hk
    exact Remove_present_evLog hw hfl hk
  · intro c s e hc hl hfl
    exact RemoveOldest_evLog hc hl hfl
  · intro c k v hw hfl hpos hk hlen
    obtain ⟨e, hegl, _, _, _, hev⟩ := Add_at_capacity v hw hpos hk hlen
    exact ⟨e, hegl, by rw [hev, if_pos hfl]⟩
  · intro c hw hfl
    refine ⟨Clear_evLog hfl, clearEntries_perm hw, ?_⟩
    rw [Clear_evLog hfl, List.length_append, (clearEntries_perm hw).length_eq]
    cases hc : c.cache with
    | none =>
      have hll : c.ll = none := hw.1.mpr hc
      simp [Len, hc, hll]
    | some s =>
      simp only [Len, hc]
      push_cast
      ring
  · intro c op hw hfl
    have := step_balance hw hfl op
    simp only [removedCount]
    omega
  · intro c ops hw hfl
    exact run_evLog_total hw hfl ops

end LRU

namespace LRU

/-- Witness for C6 on the concrete two-entry cache with callback. -/
theorem claim_C6_witness :
    (∃ e, findEntry 1 (sampleCache.ll.getD []) = some e ∧ e.1 = 1
      ∧ e ∈ sampleCache.ll.getD []
      ∧ (Remove sampleCache 1).evLog = sampleCache.evLog ++ [e])
    ∧ (RemoveOldest sampleCache).evLog = sampleCache.evLog ++ [(1, 10)]
    ∧ (∃ e, (sampleCache.ll.getD []).getLast? = some e
        ∧ (Add sampleCache 3 30).evLog = sampleCache.evLog ++ [e])
    ∧ ((Clear sampleCache).evLog = sampleCache.evLog ++ clearEntries sampleCache
        ∧ (clearEntries sampleCache).Perm (sampleCache.ll.getD [])
        ∧ ((Clear sampleCache).evLog.length : Int)
            = (sampleCache.evLog.length : Int) + Len sampleCache)
    ∧ ((step sampleCache Op.clear).evLog.length : Int)
        = (sampleCache.evLog.length : Int) + removedCount sampleCache Op.clear
    ∧ ((run sampleCache [Op.clear, Op.add 1 10]).evLog.length : Int)
        = (sampleCache.evLog.length : Int)
          + removedTotal sampleCache [Op.clear, Op.add 1 10] :=
  ⟨claim_C6.1 sampleCache 1
      (wf_mk (by decide) (by decide) (fun x => by simp [sampleCache]))
      rfl (by decide),
   claim_C6.2.1 sampleCache [2, 1] (1, 10) rfl rfl rfl,
   claim_C6.2.2.1 sampleCache 3 30
      (wf_mk (by decide) (by decide) (fun x => by simp [sampleCache]))
      rfl (by decide) (by decide) (by decide),
   claim_C6.2.2.2.1 sampleCache
      (wf_mk (by decide) (by decide) (fun x => by simp [sampleCache])) rfl,
   claim_C6.2.2.2.2.1 sampleCache Op.clear
      (wf_mk (by decide) (by decide) (fun x => by simp [sampleCache])) rfl,
   claim_C6.2.2.2.2.2 sampleCache [Op.clear, Op.add 1 10]
      (wf_mk (by decide) (by decide) (fun x => by simp [sampleCache])) rfl⟩

/-- Witness for C5 on a concrete three-entry-capacity cache. -/
theorem claim_C5_witness :
    ∃ e, findEntry 1 ((addAll (New Nat Nat 3) [(1, 10), (2, 20)]).ll.getD [])
        = some e ∧
      Get (addAll (New Nat Nat 3) [(1, 10), (2, 20)]) 1
        = (some e.2, true,
          { addAll (New Nat Nat 3) [(1, 10), (2, 20)] with
            ll := some (e :: eraseKey 1
              ((addAll (New Nat Nat 3) [(1, 10), (2, 20)]).ll.getD [])) }) :=
  claim_C5.1 (addAll (New Nat Nat 3) [(1, 10), (2, 20)]) 1
    (wf_addAll (wf_New 3) _) (by decide)

end LRU

/-! ### Claims C7 and C2 — hash ring structure and lookup -/

namespace CHash

theorem addNode_foldl (key : String) :
    ∀ (xs : List Nat) (m : HMap),
    xs.foldl (fun acc i =>
      let h := acc.hash (toString i ++ key)
      { acc with keys := acc.keys ++ [h], hashMap := (h, key) :: acc.hashMap }) m
      = { m with
          keys := m.keys ++ xs.map (fun i => m.hash (toString i ++ key)),
          hashMap := (xs.map (fun i => (m.hash (toString i ++ key), key))).reverse
            ++ m.hashMap } := by
  intro xs
  induction xs with
  | nil =>
    intro m
    simp
  | cons x xs ih =>
    intro m
    rw [List.foldl_cons, ih]
    simp [HMap.mk.injEq, List.append_assoc, List.reverse_cons]

theorem addNode_spec (m : HMap) (key : String) :
    addNode m key
      = { m with
          keys := m.keys
            ++ (List.range m.replicas).map (fun i => m.hash (toString i ++ key)),
          hashMap := ((List.range m.replicas).map
              (fun i => (m.hash (toString i ++ key), key))).reverse
            ++ m.hashMap } := by
  simp only [addNode]
  exact addNode_foldl key (List.range m.replicas) m

theorem foldl_addNode_spec :
    ∀ (ks : List String) (m : HMap),
    ks.foldl addNode m
      = { m with
          keys := m.keys ++ (newPoints m ks).map Prod.fst,
          hashMap := (newPoints m ks).reverse ++ m.hashMap } := by
  intro ks
  induction ks with
  | nil =>
    intro m
    simp [newPoints]
  | cons k ks ih =>
    intro m
    rw [List.foldl_cons, addNode_spec, ih]
    simp [newPoints, HMap.mk.injEq, List.flatMap_cons, List.map_map,
      List.append_assoc, List.reverse_append, Function.comp]

theorem Add_spec (m : HMap) (ks : List String) :
    Add m ks
      = { m with
          keys := sortNats (m.keys ++ (newPoints m ks).map Prod.fst),
          hashMap := (newPoints m ks).reverse ++ m.hashMap } := by
  simp only [Add, foldl_addNode_spec]

theorem sortNats_sorted (l : List Nat) : (sortNats l).Sorted (· ≤ ·) :=
  List.sorted_insertionSort (· ≤ ·) l

theorem sortNats_perm (l : List Nat) : (sortNats l).Perm l :=
  List.perm_insertionSort (· ≤ ·) l

theorem lookupNode_append_left :
    ∀ {a : List (Nat × String)} (b : List (Nat × String)) {h : Nat}
    {n : String}, (h, n) ∈ a → (a.map Prod.fst).Nodup →
    lookupNode h (a ++ b) = n := by
  intro a
  induction a with
  | nil => intro b h n hm; exact absurd hm (List.not_mem_nil _)
  | cons p t ih =>
    intro b h n hm hnd
    obtain ⟨h', n'⟩ := p
    rw [List.map_cons, List.nodup_cons] at hnd
    rw [List.cons_append]
    simp only [lookupNode]
    by_cases hh : h' = h
    · rw [if_pos hh]
      rcases List.mem_cons.mp hm with he | ht
      · injection he with hh2 hn2
        exact hn2.symm
      · refine absurd ?_ hnd.1
        rw [hh]
        exact List.mem_map.mpr ⟨(h, n), ht, rfl⟩
    · rw [if_neg hh]
      rcases List.mem_cons.mp hm with he | ht
      · injection he with hh2 hn2
        exact absurd hh2.symm hh
      · exact ih b ht hnd.2

end CHash

namespace CHash

theorem newPoints_mem {m : HMap} {ks : List String} {key : String} {i : Nat}
    (hkey : key ∈ ks) (hi : i < m.replicas) :
    (m.hash (toString i ++ key), key) ∈ newPoints m ks := by
  unfold newPoints
  exact List.mem_flatMap.mpr
    ⟨key, hkey, List.mem_map.mpr ⟨i, List.mem_range.mpr hi, rfl⟩⟩

theorem newPoints_length (m : HMap) :
    ∀ ks : List String, (newPoints m ks).length = ks.length * m.replicas := by
  intro ks
  induction ks with
  | nil => simp [newPoints]
  | cons k ks ih =>
    simp only [newPoints, List.flatMap_cons, List.length_append,
      List.length_map, List.length_range]
    simp only [newPoints] at ih
    rw [ih, List.length_cons, Nat.succ_mul]
    omega

/-- Claim C7: every `Add` gives each added node exactly `replicas` virtual
points, hashed from the concatenation of the replica index and the node
identifier; each point is recorded in the hash-to-node map (its lookup
yields the node when no hash collision occurs among the added points); and
the virtual-point list is sorted ascending after every `Add`. -/
theorem claim_C7 :
    (∀ (m : HMap) (ks : List String), ((Add m ks).keys).Sorted (· ≤ ·))
    ∧ (∀ (m : HMap) (ks : List String),
        (Add m ks).keys.Perm (m.keys ++ (newPoints m ks).map Prod.fst))
    ∧ (∀ (m : HMap) (ks : List String),
        (Add m ks).hashMap = (newPoints m ks).reverse ++ m.hashMap)
    ∧ (∀ (m : HMap) (ks : List String) (key : String) (i : Nat),
        key ∈ ks → i < m.replicas →
        (m.hash (toString i ++ key), key) ∈ newPoints m ks
        ∧ (((newPoints m ks).map Prod.fst).Nodup →
            lookupNode (m.hash (toString i ++ key)) (Add m ks).hashMap = key))
    ∧ (∀ (m : HMap) (ks : List String),
        (newPoints m ks).length = ks.length * m.replicas) := by
  refine ⟨?_, ?_, ?_, ?_, ?_⟩
  · intro m ks
    rw [Add_spec]
    exact sortNats_sorted _
  · intro m ks
    rw [Add_spec]
    exact sortNats_perm _
  · intro m ks
    rw [Add_spec]
  · intro m ks key i hkey hi
    refine ⟨newPoints_mem hkey hi, fun hnd => ?_⟩
    rw [Add_spec]
    refine lookupNode_append_left m.hashMap
      (List.mem_reverse.mpr (newPoints_mem hkey hi)) ?_
    rw [List.map_reverse]
    exact List.nodup_reverse.mpr hnd
  · intro m ks
    exact newPoints_length m ks

/-- Witness for C7 on a concrete ring: three replicas per node, an
injective toy hash, nodes "a" and "b". -/
theorem claim_C7_witness :
    ((Add (New 3 sampleHash)
        ["a", "b"]).keys).Sorted (· ≤ ·)
    ∧ (Add (New 3 sampleHash)
        ["a", "b"]).keys.Perm
        ((New 3 sampleHash).keys
          ++ (newPoints
            (New 3 sampleHash)
            ["a", "b"]).map Prod.fst)
    ∧ ((New 3 sampleHash).hash
          (toString 1 ++ "b"),
        "b") ∈ newPoints
          (New 3 sampleHash)
          ["a", "b"]
    ∧ lookupNode
        ((New 3 sampleHash).hash
          (toString 1 ++ "b"))
        (Add (New 3 sampleHash)
          ["a", "b"]).hashMap = "b"
    ∧ (newPoints (New 3 sampleHash)
        ["a", "b"]).length = 6 :=
  ⟨claim_C7.1 _ _,
   claim_C7.2.1 _ _,
   (claim_C7.2.2.2.1 _ ["a", "b"] "b" 1 (by decide) (by decide)).1,
   (claim_C7.2.2.2.1 _ ["a", "b"] "b" 1 (by decide) (by decide)).2 (by decide),
   claim_C7.2.2.2.2 _ ["a", "b"]⟩

end CHash

namespace CHash

theorem searchLoop_spec (f : Nat → Bool) (n : Nat)
    (mono : ∀ a b, a ≤ b → b < n → f a = true → f b = true) :
    ∀ (fuel i j : Nat), i ≤ j → j ≤ n → j - i ≤ fuel →
    (∀ t, t < i → f t = false) → (∀ t, j ≤ t → t < n → f t = true) →
    i ≤ searchLoop f fuel i j ∧ searchLoop f fuel i j ≤ j
      ∧ (∀ t, t < searchLoop f fuel i j → f t = false)
      ∧ (searchLoop f fuel i j < n → f (searchLoop f fuel i j) = true) := by
  intro fuel
  induction fuel with
  | zero =>
    intro i j hij hjn hfuel hlow hhigh
    simp only [searchLoop]
    exact ⟨le_refl i, hij, hlow, fun hin => hhigh i (by omega) hin⟩
  | succ fuel ih =>
    intro i j hij hjn hfuel hlow hhigh
    simp only [searchLoop]
    by_cases hlt : i < j
    · rw [if_pos hlt]
      have hmid1 : i ≤ (i + j) / 2 := by omega
      have hmid2 : (i + j) / 2 < j := by omega
      by_cases hf : f ((i + j) / 2) = true
      · rw [if_pos hf]
        obtain ⟨ha, hb, hc, hd⟩ := ih i ((i + j) / 2) hmid1 (by omega) (by omega)
          hlow (fun t ht htn => mono ((i + j) / 2) t ht htn hf)
        exact ⟨ha, by omega, hc, hd⟩
      · rw [if_neg hf]
        obtain ⟨ha, hb, hc, hd⟩ := ih ((i + j) / 2 + 1) j (by omega) hjn (by omega)
          (fun t ht => by
            by_cases hti : t < i
            · exact hlow t hti
            · cases hft : f t with
              | false => rfl
              | true =>
                exact absurd (mono t ((i + j) / 2) (by omega) (by omega) hft) hf)
          hhigh
        exact ⟨by omega, hb, hc, hd⟩
    · rw [if_neg hlt]
      exact ⟨le_refl i, hij, hlow, fun hin => hhigh i (by omega) hin⟩

/-- Characterisation of Go `sort.Search` for a monotone predicate: the
result is at most `n`, everything below it fails the predicate, and if it
is below `n` it satisfies the predicate (so it is the least such index). -/
theorem sortSearch_spec (f : Nat → Bool) (n : Nat)
    (mono : ∀ a b, a ≤ b → b < n → f a = true → f b = true) :
    sortSearch n f ≤ n ∧ (∀ t, t < sortSearch n f → f t = false)
      ∧ (sortSearch n f < n → f (sortSearch n f) = true) := by
  obtain ⟨_, hb, hc, hd⟩ := searchLoop_spec f n mono n 0 n (Nat.zero_le n)
    (le_refl n) (by omega) (fun t ht => absurd ht (Nat.not_lt_zero t))
    (fun t ht htn => absurd (Nat.lt_of_le_of_lt ht htn) (lt_irrefl n))
  exact ⟨hb, hc, hd⟩

end CHash

namespace CHash

theorem Get_eq (m : HMap) (key : String) (hne : ¬(IsEmpty m = true)) :
    Get m key
      = lookupNode (m.keys.getD
          (if sortSearch m.keys.length
              (fun i => decide (m.keys.getD i 0 ≥ m.hash key)) = m.keys.length
           then 0
           else sortSearch m.keys.length
              (fun i => decide (m.keys.getD i 0 ≥ m.hash key))) 0) m.hashMap := by
  rw [Get, if_neg hne]

/-- Claim C2: `Get` on an empty ring returns the empty sentinel; on a
non-empty ring with sorted virtual points it hashes the key alone and
returns the owner of the virtual point with the smallest hash ≥ the key's
hash, wrapping around to the overall smallest virtual point when every
point hashes below the key. -/
theorem claim_C2 :
    (∀ (m : HMap) (key : String), IsEmpty m = true → Get m key = "")
    ∧ (∀ (m : HMap) (key : String), m.keys.Sorted (· ≤ ·) → m.keys ≠ [] →
        ((∀ x ∈ m.keys, x < m.hash key) →
          Get m key = lookupNode (m.keys.getD 0 0) m.hashMap
            ∧ (∀ x ∈ m.keys, m.keys.getD 0 0 ≤ x))
        ∧ ∀ c, c ∈ m.keys → m.hash key ≤ c →
            (∀ x ∈ m.keys, m.hash key ≤ x → c ≤ x) →
            Get m key = lookupNode c m.hashMap) := by
  refine ⟨?_, ?_⟩
  · intro m key he
    rw [Get, if_pos he]
  · intro m key hs hne
    have hpos : 0 < m.keys.length := List.length_pos.mpr hne
    have hie : ¬(IsEmpty m = true) := by
      simp [IsEmpty, List.length_eq_zero, hne]
    have hgetD : ∀ t, t < m.keys.length → m.keys.getD t 0 = m.keys[t]! := by
      intro t ht
      rw [List.getD_eq_getElem?_getD, List.getElem?_eq_getElem ht,
        Option.getD_some, getElem!_pos m.keys t ht]
    have hmget : ∀ a b, ∀ ha : a < m.keys.length, ∀ hb : b < m.keys.length,
        a ≤ b → m.keys[a]! ≤ m.keys[b]! := by
      intro a b ha hb hab
      rw [getElem!_pos m.keys a ha, getElem!_pos m.keys b hb]
      have := hs.rel_get_of_le (a := ⟨a, ha⟩) (b := ⟨b, hb⟩) hab
      simpa [List.get_eq_getElem] using this
    have hmono : ∀ a b, a ≤ b → b < m.keys.length →
        (fun i => decide (m.keys.getD i 0 ≥ m.hash key)) a = true →
        (fun i => decide (m.keys.getD i 0 ≥ m.hash key)) b = true := by
      intro a b hab hb hfa
      simp only [decide_eq_true_eq] at hfa ⊢
      rw [hgetD b hb]
      rw [hgetD a (lt_of_le_of_lt hab hb)] at hfa
      exact le_trans hfa (hmget a b (lt_of_le_of_lt hab hb) hb hab)
    obtain ⟨hr1, hr2, hr3⟩ := sortSearch_spec
      (fun i => decide (m.keys.getD i 0 ≥ m.hash key)) m.keys.length hmono
    constructor
    · intro hbelow
      have hidx : sortSearch m.keys.length
          (fun i => decide (m.keys.getD i 0 ≥ m.hash key)) = m.keys.length := by
        by_contra hne'
        have hlt := lt_of_le_of_ne hr1 hne'
        have hfr := hr3 hlt
        simp only [decide_eq_true_eq] at hfr
        rw [hgetD _ hlt] at hfr
        refine absurd hfr (not_le.mpr ?_)
        rw [getElem!_pos m.keys _ hlt]
        exact hbelow _ (List.getElem_mem hlt)
      constructor
      · rw [Get_eq m key hie, hidx, if_pos rfl]
      · intro x hx
        obtain ⟨j, hj, hxj⟩ := List.mem_iff_getElem.mp hx
        rw [hgetD 0 hpos, ← hxj, ← getElem!_pos m.keys j hj]
        exact hmget 0 j hpos hj (Nat.zero_le j)
    · intro c hc hhc hmin
      obtain ⟨jc, hjc, hcj⟩ := List.mem_iff_getElem.mp hc
      have hfjc : (fun i => decide (m.keys.getD i 0 ≥ m.hash key)) jc = true := by
        simp only [decide_eq_true_eq]
        rw [hgetD jc hjc, getElem!_pos m.keys jc hjc, hcj]
        exact hhc
      have hrle : sortSearch m.keys.length
          (fun i => decide (m.keys.getD i 0 ≥ m.hash key)) ≤ jc := by
        by_contra h'
        exact absurd (hfjc.symm.trans (hr2 jc (by omega))) (by decide)
      have hrlt : sortSearch m.keys.length
          (fun i => decide (m.keys.getD i 0 ≥ m.hash key)) < m.keys.length :=
        lt_of_le_of_lt hrle hjc
      have hfr := hr3 hrlt
      simp only [decide_eq_true_eq] at hfr
      rw [hgetD _ hrlt] at hfr
      have h1 : c ≤ m.keys[sortSearch m.keys.length
          (fun i => decide (m.keys.getD i 0 ≥ m.hash key))]! := by
        rw [getElem!_pos m.keys _ hrlt]
        refine hmin _ (List.getElem_mem hrlt) ?_
        rw [getElem!_pos m.keys _ hrlt] at hfr
        exact hfr
      have h2 : m.keys[sortSearch m.keys.length
          (fun i => decide (m.keys.getD i 0 ≥ m.hash key))]! ≤ c := by
        rw [← hcj, ← getElem!_pos m.keys jc hjc]
        exact hmget _ jc hrlt hjc hrle
      rw [Get_eq m key hie, if_neg (by omega), hgetD _ hrlt,
        le_antisymm h2 h1]

end CHash

namespace CHash

/-- Witness for C2 on a concrete six-point ring plus the empty ring. -/
theorem claim_C2_witness :
    Get (New 3 sampleHash) "q" = ""
    ∧ (Get (Add (New 3 sampleHash) ["a", "b"]) "big"
        = lookupNode ((Add (New 3 sampleHash) ["a", "b"]).keys.getD 0 0)
            (Add (New 3 sampleHash) ["a", "b"]).hashMap
      ∧ (∀ x ∈ (Add (New 3 sampleHash) ["a", "b"]).keys,
          (Add (New 3 sampleHash) ["a", "b"]).keys.getD 0 0 ≤ x))
    ∧ Get (Add (New 3 sampleHash) ["a", "b"]) "q"
        = lookupNode 10 (Add (New 3 sampleHash) ["a", "b"]).hashMap :=
  ⟨claim_C2.1 (New 3 sampleHash) "q" (by decide),
   (claim_C2.2 (Add (New 3 sampleHash) ["a", "b"]) "big"
      (by decide) (by decide)).1 (by decide),
   (claim_C2.2 (Add (New 3 sampleHash) ["a", "b"]) "q"
      (by decide) (by decide)).2 10 (by decide) (by decide) (by decide)⟩

end CHash

/-! ### Claim C3 — call coalescer, sequential behaviour -/

namespace SFlight

variable {V E : Type}

theorem findRec_eq_none {key : String} :
    ∀ {l : List (String × CallRec V E)},
    findRec key l = none ↔ ∀ p ∈ l, p.1 ≠ key := by
  intro l
  induction l with
  | nil => simp [findRec]
  | cons p t ih =>
    simp only [findRec]
    by_cases hp : p.1 = key
    · rw [if_pos hp]
      simp only [List.mem_cons]
      constructor
      · exact fun h => Option.noConfusion h
      · exact fun h => absurd hp (h p (Or.inl rfl))
    · rw [if_neg hp]
      simp only [List.mem_cons]
      constructor
      · intro h q hq
        rcases hq with rfl | hq
        · exact hp
        · exact ih.mp h q hq
      · exact fun h => ih.mpr (fun q hq => h q (Or.inr hq))

theorem deleteRec_of_none {key : String} {l : List (String × CallRec V E)}
    (h : findRec key l = none) : deleteRec key l = l := by
  rw [deleteRec, List.filter_eq_self]
  intro p hp
  exact decide_eq_true (findRec_eq_none.mp h p hp)

theorem deleteRec_cons_self {key : String} (c : CallRec V E)
    (l : List (String × CallRec V E)) :
    deleteRec key ((key, c) :: l) = deleteRec key l := by
  rw [deleteRec, deleteRec, List.filter_cons]
  simp

theorem Do_fresh {g : Group V E} {key : String} (fn : Unit → V × Option E)
    (h : findRec key (g.m.getD []) = none) :
    Do g key fn
      = ((some (fn ()).1, (fn ()).2), { m := some (g.m.getD []) }, 1) := by
  simp only [Do]
  rw [h]
  rw [deleteRec_cons_self, deleteRec_cons_self, deleteRec_of_none h,
    deleteRec_of_none h]

/-- Claim C3: a `Do` call with no in-flight call for its key invokes the
operation exactly once and returns exactly the operation's (value, error)
pair — the error verbatim, no error kind of the coalescer's own; on return
the in-flight record is gone, so a subsequent non-overlapping `Do` for the
same key invokes its operation afresh and returns that fresh result. -/
theorem claim_C3 :
    (∀ (g : Group V E) (key : String) (fn : Unit → V × Option E),
      findRec key (g.m.getD []) = none →
      Do g key fn
        = ((some (fn ()).1, (fn ()).2), { m := some (g.m.getD []) }, 1))
    ∧ (∀ (g : Group V E) (key : String) (fn : Unit → V × Option E),
        findRec key (g.m.getD []) = none →
        findRec key (((Do g key fn).2.1).m.getD []) = none)
    ∧ (∀ (g : Group V E) (key : String) (fn fn2 : Unit → V × Option E),
        findRec key (g.m.getD []) = none →
        Do ((Do g key fn).2.1) key fn2
          = ((some (fn2 ()).1, (fn2 ()).2),
             { m := some (((Do g key fn).2.1).m.getD []) }, 1)) := by
  refine ⟨?_, ?_, ?_⟩
  · intro g key fn h
    exact Do_fresh fn h
  · intro g key fn h
    rw [Do_fresh fn h]
    exact h
  · intro g key fn fn2 h
    refine Do_fresh fn2 ?_
    rw [Do_fresh fn h]
    exact h

/-- Witness for C3: a fresh group, an operation returning value 7 with an
error, then a second operation returning 8 with no error. -/
theorem claim_C3_witness :
    Do (emptyGroup Nat String) "k" (fun _ => (7, some "boom"))
      = ((some 7, some "boom"), { m := some [] }, 1)
    ∧ findRec "k"
        (((Do (emptyGroup Nat String) "k"
          (fun _ => (7, some "boom"))).2.1).m.getD []) = none
    ∧ Do ((Do (emptyGroup Nat String) "k" (fun _ => (7, some "boom"))).2.1)
        "k" (fun _ => (8, none))
      = ((some 8, none), { m := some [] }, 1) :=
  ⟨claim_C3.1 (emptyGroup Nat String) "k" (fun _ => (7, some "boom")) rfl,
   claim_C3.2.1 (emptyGroup Nat String) "k" (fun _ => (7, some "boom")) rfl,
   claim_C3.2.2 (emptyGroup Nat String) "k" (fun _ => (7, some "boom"))
     (fun _ => (8, none)) rfl⟩

end SFlight
